import Mathlib

/-!
Verification development for supabase/scripts/import_universities.py.

Strings are modelled as List Char (Python str). Machine details follow the
source: normalize_domain applies strip, lower, replace("http://",""),
replace("https://",""), strip("/") and truncates to 255 characters; the
database tables behind CREATE_TABLES_SQL are modelled as lists of rows, with
the PostgreSQL semantics of the statements the script executes:
ON CONFLICT (name, country) conflicts through the unique constraint
universities_name_country_key, whose NULL country values are distinct
(standard PostgreSQL unique-constraint semantics), and
ON CONFLICT (domain) DO NOTHING is a silent no-op on an existing domain.
External failures (a raising cur.execute) are injected through an oracle;
a statement that raises has no effect on the store, and the per-record
SAVEPOINT/ROLLBACK discipline of main() restores the state captured at the
start of the record.
-/

/-- Python str.strip(chars): drop leading and trailing characters satisfying p. -/
def stripBoth (p : Char → Bool) (s : List Char) : List Char :=
  ((s.dropWhile p).reverse.dropWhile p).reverse

/-- Python str.strip() with no arguments: strip whitespace from both ends. -/
def stripWS (s : List Char) : List Char := stripBoth Char.isWhitespace s

/-- Python str.strip("/"): strip slashes from both ends (line 81 of the source). -/
def stripSlash (s : List Char) : List Char := stripBoth (fun c => c == '/') s

/-- Worker for removeSub. Python str.replace scans left to right; on a match it
deletes the occurrence and resumes after it. The Nat argument counts pattern
characters still to be deleted from the current match. -/
def removeAllGo (pat : List Char) : Nat → List Char → List Char
  | _, [] => []
  | k+1, _ :: cs => removeAllGo pat k cs
  | 0, c :: cs =>
    if pat.isPrefixOf (c :: cs) then removeAllGo pat (pat.length - 1) cs
    else c :: removeAllGo pat 0 cs

/-- Python s.replace(pat, "") for the nonempty patterns used by the source. -/
def removeSub (pat s : List Char) : List Char := removeAllGo pat 0 s

/-- pat occurs as a contiguous substring of the second argument. -/
def hasSubstr (pat : List Char) : List Char → Bool
  | [] => pat.isPrefixOf []
  | c :: cs => pat.isPrefixOf (c :: cs) || hasSubstr pat cs

/-- normalize_domain from the source (lines 77-86): strip whitespace, lowercase,
delete every occurrence of "http://" and of "https://", strip slashes from both
ends, truncate to 255 characters. -/
def normalize_domain (d : List Char) : List Char :=
  let d1 := (stripWS d).map Char.toLower
  let d2 := removeSub "http://".toList d1
  let d3 := removeSub "https://".toList d2
  let d4 := stripSlash d3
  if d4.length > 255 then d4.take 255 else d4

/-- normalize_website from the source (lines 89-93): absent or
whitespace-only input yields absent, otherwise the trimmed string. -/
def normalize_website : Option (List Char) → Option (List Char)
  | none => none
  | some url =>
    let u := stripWS url
    if u = [] then none else some u

/-- A row of public.universities. The uuid id is modelled as a positive Nat
(uuids are always truthy in the Python driver, so ids start at 1). -/
structure UniRow where
  id : Nat
  name : List Char
  country : Option (List Char)
  alpha_two_code : Option (List Char)
  website : Option (List Char)
deriving DecidableEq

/-- A row of public.university_domains. -/
structure DomainRow where
  domain : List Char
  university_id : Nat
  is_primary : Bool
deriving DecidableEq

/-- The two tables created by CREATE_TABLES_SQL, plus the uuid generator. -/
structure DB where
  unis : List UniRow
  doms : List DomainRow
  nextId : Nat
deriving DecidableEq

/-- SQL coalesce(x, y). -/
def coalesce (x y : Option (List Char)) : Option (List Char) :=
  match x with
  | some v => some v
  | none => y

/-- Arbiter test for ON CONFLICT (name, country): a row conflicts with an
incoming (name, country) pair through the unique constraint
universities_name_country_key. PostgreSQL treats NULLs in a unique constraint
as distinct from every value including NULL, so a null country never
conflicts with anything. -/
def keyConflict (r : UniRow) (n : List Char) (c : Option (List Char)) : Bool :=
  r.name == n &&
    match r.country, c with
    | some c1, some c2 => c1 == c2
    | _, _ => false

/-- Replace the first element satisfying p by its image under f. -/
def updateFirst (p : α → Bool) (f : α → α) : List α → List α
  | [] => []
  | x :: xs => if p x then f x :: xs else x :: updateFirst p f xs

/-- The DO UPDATE SET clause of UPSERT_UNIVERSITY_SQL:
alpha_two_code = coalesce(excluded.alpha_two_code, universities.alpha_two_code),
website = coalesce(excluded.website, universities.website). -/
def applyUpd (ac w : Option (List Char)) (r : UniRow) : UniRow :=
  { r with alpha_two_code := coalesce ac r.alpha_two_code,
           website := coalesce w r.website }

/-- UPSERT_UNIVERSITY_SQL (lines 61-68): insert, or on conflict update the
conflicting row, returning the row id in either case. -/
def upsert_university (db : DB) (n : List Char) (c ac w : Option (List Char)) :
    Nat × DB :=
  match db.unis.find? (fun r => keyConflict r n c) with
  | some r =>
    (r.id,
     { db with unis := updateFirst (fun q => keyConflict q n c) (applyUpd ac w) db.unis })
  | none =>
    (db.nextId,
     { db with
        unis := db.unis ++
          [{ id := db.nextId, name := n, country := c, alpha_two_code := ac, website := w }],
        nextId := db.nextId + 1 })

/-- INSERT_DOMAIN_SQL (lines 70-74): ON CONFLICT (domain) DO NOTHING. -/
def insert_domain (db : DB) (d : List Char) (uid : Nat) (prim : Bool) : DB :=
  if db.doms.any (fun r => r.domain == d) then db
  else { db with doms := db.doms ++ [{ domain := d, university_id := uid, is_primary := prim }] }

/-- One raw input record, with the fields main() reads. Non-string and
non-list JSON values for these fields are outside the modelled input space. -/
structure Entry where
  name : Option (List Char)
  country : Option (List Char)
  alpha_two_code : Option (List Char)
  web_pages : Option (List (List Char))
  domains : Option (List (List Char))
deriving DecidableEq

/-- External-failure oracle: uniFails idx means cur.execute of the university
upsert raises for record idx; domFails idx i means cur.execute of the domain
insert raises for record idx at domain position i. A raising statement has no
effect on the store. -/
structure Oracle where
  uniFails : Nat → Bool
  domFails : Nat → Nat → Bool

/-- Oracle of a run during which no statement raises. -/
def pureOracle : Oracle := ⟨fun _ => false, fun _ _ => false⟩

/-- name = (entry.get("name") or "").strip()  (line 156). -/
def entryName (e : Entry) : List Char := stripWS (e.name.getD [])

/-- country = country.strip() if isinstance(country, str) else None  (line 163). -/
def entryCountry (e : Entry) : Option (List Char) := e.country.map stripWS

/-- alpha_two_code extraction (line 166). -/
def entryAlpha (e : Entry) : Option (List Char) := e.alpha_two_code.map stripWS

/-- website = normalize_website(web_pages[0] if ... else None)  (lines 168-169). -/
def entryWebsite (e : Entry) : Option (List Char) :=
  normalize_website ((e.web_pages.getD []).head?)

/-- domains = entry.get("domains") or []  (lines 179-181). -/
def entryDomains (e : Entry) : List (List Char) := e.domains.getD []

/-- Driver state: the database plus the three counters of main() and the log
of mid-run commits; each commit entry records (inserted_unis,
inserted_domains) at commit time (the mid-run ones also print a progress
line). -/
structure RunState where
  db : DB
  inserted_unis : Nat
  inserted_domains : Nat
  skipped : Nat
  commits : List (Nat × Nat)
deriving DecidableEq

/-- Body of the per-domain loop iteration (lines 184-198): normalize, skip an
empty result, execute INSERT_DOMAIN_SQL with is_primary = (i == 0) and count
the attempt; a raising execute is caught, logged as a warning and skipped. -/
def domainStep (orc : Oracle) (idx uid i : Nat) (acc : DB × Nat) (d : List Char) :
    DB × Nat :=
  if normalize_domain d = [] then acc
  else if orc.domFails idx i then acc
  else (insert_domain acc.1 (normalize_domain d) uid (i == 0), acc.2 + 1)

/-- for i, d in enumerate(domains)  (line 184), threading the database and the
inserted_domains counter. -/
def processDomains (orc : Oracle) (idx uid : Nat) :
    Nat → DB × Nat → List (List Char) → DB × Nat
  | _, acc, [] => acc
  | i, acc, d :: rest =>
    processDomains orc idx uid (i+1) (domainStep orc idx uid i acc d) rest

/-- The try/except body for one record (lines 153-217). A validation failure
or a raising university upsert increments skipped and leaves the store as the
SAVEPOINT captured it; otherwise the upsert runs, inserted_unis increments,
and the domain loop runs. -/
def recordDomains (orc : Oracle) (idx : Nat) (st : RunState) (e : Entry) : DB × Nat :=
  processDomains orc idx
    (upsert_university st.db (entryName e) (entryCountry e) (entryAlpha e) (entryWebsite e)).1 0
    ((upsert_university st.db (entryName e) (entryCountry e) (entryAlpha e) (entryWebsite e)).2,
     st.inserted_domains)
    (entryDomains e)

def processEntry (orc : Oracle) (idx : Nat) (st : RunState) (e : Entry) : RunState :=
  if entryName e = [] then
    { st with skipped := st.skipped + 1 }
  else if orc.uniFails idx then
    { st with skipped := st.skipped + 1 }
  else
    { st with db := (recordDomains orc idx st e).1,
              inserted_unis := st.inserted_unis + 1,
              inserted_domains := (recordDomains orc idx st e).2 }

/-- Batch-commit check (lines 219-222): commit and print progress whenever
inserted_unis % 500 == 0, which includes inserted_unis = 0. -/
def afterRecord (st : RunState) : RunState :=
  if st.inserted_unis % 500 == 0 then
    { st with commits := st.commits ++ [(st.inserted_unis, st.inserted_domains)] }
  else st

/-- One full loop iteration. The validation-failure path reaches its continue
on line 160 and bypasses the batch-commit check; every other path (success or
caught exception) falls through to it. -/
def recordStep (orc : Oracle) (idx : Nat) (st : RunState) (e : Entry) : RunState :=
  if entryName e = [] then processEntry orc idx st e
  else afterRecord (processEntry orc idx st e)

/-- for idx, entry in enumerate(data, 1)  (line 150). -/
def processList (orc : Oracle) : Nat → RunState → List Entry → RunState
  | _, st, [] => st
  | idx, st, e :: rest => processList orc (idx+1) (recordStep orc idx st e) rest

/-- Fresh database, as after CREATE_TABLES_SQL on an empty store. -/
def emptyDB : DB := { unis := [], doms := [], nextId := 1 }

/-- Driver state at the start of the import loop. -/
def initState : RunState :=
  { db := emptyDB, inserted_unis := 0, inserted_domains := 0, skipped := 0, commits := [] }

/-- One whole run of main()'s import loop including the unconditional final
commit on line 224. -/
def runImport (orc : Oracle) (es : List Entry) : RunState :=
  let st := processList orc 1 initState es
  { st with commits := st.commits ++ [(st.inserted_unis, st.inserted_domains)] }

/-- does the universities table satisfy a (name, country) arbiter lookup. -/
def hasKey (db : DB) (n : List Char) (c : Option (List Char)) : Bool :=
  db.unis.any (fun r => keyConflict r n c)

/-- is the domain string already claimed in university_domains. -/
def hasDom (db : DB) (d : List Char) : Bool :=
  db.doms.any (fun r => r.domain == d)

/-- Number of universities rows conflicting with (n, some cs). -/
def countKey (db : DB) (n cs : List Char) : Nat :=
  db.unis.countP (fun r => keyConflict r n (some cs))

/-- Repeated upserts against the same (name, country) key. -/
def foldUpserts (db : DB) (n : List Char) (c : Option (List Char))
    (ps : List (Option (List Char) × Option (List Char))) : DB :=
  ps.foldl (fun d p => (upsert_university d n c p.1 p.2).2) db

/-- Most recently supplied non-null value of a sequence of optional values. -/
def lastNonNull (ws : List (Option (List Char))) : Option (List Char) :=
  ws.foldl (fun acc w => coalesce w acc) none

/-- Every record of the list either fails validation or carries a present
country (the regime in which the (name, country) dedupe works). -/
def allCountryOk (es : List Entry) : Bool :=
  es.all (fun e => entryName e == ([] : List Char) || (entryCountry e).isSome)

/-- Record with name "A" and no country field. -/
def noCountryA : Entry :=
  { name := some "A".toList, country := none, alpha_two_code := none,
    web_pages := none, domains := none }

/-- Record with name "A", country "US", a website and two domains. -/
def goodA : Entry :=
  { name := some "A".toList, country := some "US".toList, alpha_two_code := none,
    web_pages := some ["http://a.edu".toList], domains := some ["a.edu".toList, "www.a.edu".toList] }

/-- Record with name "B" and country "US". -/
def goodB : Entry :=
  { name := some "B".toList, country := some "US".toList, alpha_two_code := none,
    web_pages := none, domains := some ["b.edu".toList] }

/-- Malformed record: whitespace-only name, with data that must not land. -/
def badE : Entry :=
  { name := some "  ".toList, country := some "US".toList, alpha_two_code := none,
    web_pages := some ["http://bad.edu".toList], domains := some ["bad.edu".toList] }

/-- Oracle raising on the university upsert of record 1 only. -/
def failFirst : Oracle := ⟨fun i => i == 1, fun _ _ => false⟩

/-- Oracle raising on every domain insert at position 1. -/
def domFail1 : Oracle := ⟨fun _ => false, fun _ i => i == 1⟩

/-- The record e is "covered" by the database: it either fails validation, or
its (name, country) key is present with a present country and every nonempty
normalized domain of it is already claimed. Re-processing a covered record
cannot grow either table. -/
def covered (db : DB) (e : Entry) : Prop :=
  entryName e = [] ∨
    ((entryCountry e).isSome = true ∧
     hasKey db (entryName e) (entryCountry e) = true ∧
     ∀ d ∈ entryDomains e, normalize_domain d ≠ [] → hasDom db (normalize_domain d) = true)

/-! ### Basic list lemmas -/

theorem updateFirst_length (p : α → Bool) (f : α → α) (l : List α) :
    (updateFirst p f l).length = l.length := by
  induction l with
  | nil => rfl
  | cons a t ih =>
    unfold updateFirst
    by_cases h : p a <;> simp [h, ih]

theorem updateFirst_exists (p q : α → Bool) (f : α → α)
    (hf : ∀ x, q (f x) = q x) (l : List α)
    (h : ∃ x ∈ l, q x = true) : ∃ y ∈ updateFirst p f l, q y = true := by
  induction l with
  | nil => simp at h
  | cons a t ih =>
    unfold updateFirst
    obtain ⟨x, hx, hqx⟩ := h
    by_cases hpa : p a
    · simp only [hpa, if_true]
      rcases List.mem_cons.mp hx with rfl | hxt
      · exact ⟨f x, List.mem_cons_self _ _, by rw [hf]; exact hqx⟩
      · exact ⟨x, List.mem_cons_of_mem _ hxt, hqx⟩
    · simp only [hpa, if_false]
      rcases List.mem_cons.mp hx with rfl | hxt
      · exact ⟨x, List.mem_cons_self _ _, hqx⟩
      · obtain ⟨y, hy, hqy⟩ := ih ⟨x, hxt, hqx⟩
        exact ⟨y, List.mem_cons_of_mem _ hy, hqy⟩

theorem updateFirst_countP (p q : α → Bool) (f : α → α)
    (hf : ∀ x, q (f x) = q x) (l : List α) :
    (updateFirst p f l).countP q = l.countP q := by
  induction l with
  | nil => rfl
  | cons a t ih =>
    unfold updateFirst
    by_cases hpa : p a
    · simp [hpa, List.countP_cons, hf]
    · simp [hpa, List.countP_cons, ih]


theorem find?_updateFirst (p : α → Bool) (f : α → α) (l : List α) (r : α)
    (h : l.find? p = some r) (hf : ∀ x, p (f x) = p x) :
    (updateFirst p f l).find? p = some (f r) := by
  induction l with
  | nil => simp at h
  | cons a t ih =>
    unfold updateFirst
    by_cases hpa : p a
    · rw [if_pos hpa]
      rw [List.find?_cons_of_pos _ hpa] at h
      injection h with h
      subst h
      exact List.find?_cons_of_pos _ (by rw [hf]; exact hpa)
    · have hpa' : p a = false := by simpa using hpa
      rw [if_neg hpa]
      rw [List.find?_cons_of_neg _ (by simp [hpa'])] at h
      rw [List.find?_cons_of_neg _ (by simp [hpa'])]
      exact ih h

theorem find?_of_any (p : α → Bool) (l : List α) (h : l.any p = true) :
    ∃ r, l.find? p = some r := by
  induction l with
  | nil => simp at h
  | cons a t ih =>
    by_cases hpa : p a
    · exact ⟨a, List.find?_cons_of_pos _ hpa⟩
    · have hpa' : p a = false := by simpa using hpa
      simp only [List.any_cons, hpa', Bool.false_or] at h
      obtain ⟨r, hr⟩ := ih h
      exact ⟨r, by rw [List.find?_cons_of_neg _ (by simp [hpa'])]; exact hr⟩

/-! ### removeSub and hasSubstr lemmas -/

theorem removeAllGo_zero_cons (pat : List Char) (c : Char) (cs : List Char) :
    removeAllGo pat 0 (c :: cs) =
      if pat.isPrefixOf (c :: cs) then removeAllGo pat (pat.length - 1) cs
      else c :: removeAllGo pat 0 cs := rfl

theorem hasSubstr_cons (pat : List Char) (c : Char) (cs : List Char) :
    hasSubstr pat (c :: cs) = (pat.isPrefixOf (c :: cs) || hasSubstr pat cs) := rfl

theorem removeSub_of_not_hasSubstr (pat s : List Char)
    (h : hasSubstr pat s = false) : removeSub pat s = s := by
  induction s with
  | nil => rfl
  | cons c cs ih =>
    rw [hasSubstr_cons, Bool.or_eq_false_iff] at h
    show removeAllGo pat 0 (c :: cs) = c :: cs
    rw [removeAllGo_zero_cons, if_neg (by simp [h.1])]
    exact congrArg (c :: ·) (ih h.2)

theorem removeAllGo_skip (pat l X : List Char) :
    removeAllGo pat l.length (l ++ X) = removeAllGo pat 0 X := by
  induction l with
  | nil => rfl
  | cons c cs ih => simpa [removeAllGo] using ih

theorem isPrefixOf_append_self (l X : List Char) : l.isPrefixOf (l ++ X) = true := by
  induction l with
  | nil => cases X <;> rfl
  | cons c cs ih => simp [List.isPrefixOf, ih]

theorem removeSub_cons_self (p : Char) (ps X : List Char) :
    removeSub (p :: ps) ((p :: ps) ++ X) = removeSub (p :: ps) X := by
  show removeAllGo (p :: ps) 0 (p :: (ps ++ X)) = removeAllGo (p :: ps) 0 X
  rw [removeAllGo_zero_cons,
    if_pos (show (p :: ps).isPrefixOf (p :: (ps ++ X)) = true from isPrefixOf_append_self (p :: ps) X)]
  simpa using removeAllGo_skip (p :: ps) ps X

/-! ### strip lemmas -/

theorem dropWhile_eq_self_of_head (p : Char → Bool) (l : List Char)
    (h : ∀ c, l.head? = some c → p c = false) : l.dropWhile p = l := by
  cases l with
  | nil => rfl
  | cons c cs => simp [List.dropWhile_cons, h c rfl]

theorem stripBoth_eq_self (p : Char → Bool) (l : List Char)
    (h1 : ∀ c, l.head? = some c → p c = false)
    (h2 : ∀ c, l.getLast? = some c → p c = false) :
    stripBoth p l = l := by
  unfold stripBoth
  rw [dropWhile_eq_self_of_head p l h1,
      dropWhile_eq_self_of_head p l.reverse (by simpa [List.head?_reverse] using h2),
      List.reverse_reverse]

theorem stripSlash_append_slash (l : List Char)
    (h1 : l.head? ≠ some '/') (h2 : l.getLast? ≠ some '/') :
    stripSlash (l ++ ['/']) = l := by
  cases l with
  | nil => rfl
  | cons c cs =>
    have hc : c ≠ '/' := by simpa using h1
    unfold stripSlash stripBoth
    rw [dropWhile_eq_self_of_head _ ((c :: cs) ++ ['/']) (by
      intro x hx
      simp only [List.cons_append, List.head?_cons, Option.some.injEq] at hx
      exact beq_eq_false_iff_ne.mpr (hx ▸ hc))]
    rw [List.reverse_append]
    show (List.dropWhile (fun c => c == '/') ('/' :: (c :: cs).reverse)).reverse = c :: cs
    rw [List.dropWhile_cons]
    simp only [beq_self_eq_true, if_true]
    rw [dropWhile_eq_self_of_head _ (c :: cs).reverse (by
      intro x hx
      rw [List.head?_reverse] at hx
      refine beq_eq_false_iff_ne.mpr (fun hxx => h2 ?_)
      rw [← hxx]
      exact hx)]
    exact List.reverse_reverse _

theorem trunc_length (l : List Char) :
    (if l.length > 255 then l.take 255 else l).length ≤ 255 := by
  by_cases h : l.length > 255
  · rw [if_pos h, List.length_take]
    omega
  · rw [if_neg h]
    omega

theorem normalize_domain_length (d : List Char) : (normalize_domain d).length ≤ 255 :=
  trunc_length _

/-! ### coalesce and lastNonNull -/

theorem coalesce_none_left (y : Option (List Char)) : coalesce none y = y := rfl

theorem foldl_coalesce (ws : List (Option (List Char))) :
    ∀ a, ws.foldl (fun acc w => coalesce w acc) a = coalesce (lastNonNull ws) a := by
  induction ws with
  | nil => intro a; rfl
  | cons w ws ih =>
    intro a
    show ws.foldl _ (coalesce w a) = coalesce (lastNonNull (w :: ws)) a
    rw [ih (coalesce w a)]
    show coalesce (lastNonNull ws) (coalesce w a)
      = coalesce (ws.foldl (fun acc w => coalesce w acc) (coalesce w none)) a
    rw [ih (coalesce w none)]
    cases lastNonNull ws <;> cases w <;> rfl

theorem coalesce_lastNonNull (ws : List (Option (List Char))) (w : Option (List Char))
    (x : Option (List Char)) :
    coalesce (lastNonNull ws) (coalesce w x) = coalesce (lastNonNull (w :: ws)) x := by
  rw [← foldl_coalesce ws (coalesce w x), ← foldl_coalesce (w :: ws) x]
  rfl

/-! ### upsert and insert lemmas -/

theorem keyConflict_applyUpd (ac w : Option (List Char)) (r : UniRow)
    (n : List Char) (c : Option (List Char)) :
    keyConflict (applyUpd ac w r) n c = keyConflict r n c := rfl

theorem upsert_snd_unis_found (db : DB) (n : List Char) (c ac w : Option (List Char))
    (r : UniRow) (hf : db.unis.find? (fun q => keyConflict q n c) = some r) :
    (upsert_university db n c ac w).2.unis
      = updateFirst (fun q => keyConflict q n c) (applyUpd ac w) db.unis := by
  unfold upsert_university
  rw [hf]

theorem upsert_snd_unis_none (db : DB) (n : List Char) (c ac w : Option (List Char))
    (hf : db.unis.find? (fun q => keyConflict q n c) = none) :
    (upsert_university db n c ac w).2.unis
      = db.unis ++ [{ id := db.nextId, name := n, country := c,
                      alpha_two_code := ac, website := w }] := by
  unfold upsert_university
  rw [hf]

theorem upsert_fst_found (db : DB) (n : List Char) (c ac w : Option (List Char))
    (r : UniRow) (hf : db.unis.find? (fun q => keyConflict q n c) = some r) :
    (upsert_university db n c ac w).1 = r.id := by
  unfold upsert_university
  rw [hf]

theorem upsert_doms (db : DB) (n : List Char) (c ac w : Option (List Char)) :
    (upsert_university db n c ac w).2.doms = db.doms := by
  unfold upsert_university
  cases db.unis.find? (fun r => keyConflict r n c) <;> rfl

theorem hasDom_upsert (db : DB) (n : List Char) (c ac w : Option (List Char)) (d : List Char) :
    hasDom (upsert_university db n c ac w).2 d = hasDom db d := by
  unfold hasDom
  rw [upsert_doms]

theorem hasKey_upsert (db : DB) (n : List Char) (c ac w : Option (List Char))
    (n' : List Char) (c' : Option (List Char)) (h : hasKey db n' c' = true) :
    hasKey (upsert_university db n c ac w).2 n' c' = true := by
  unfold hasKey at *
  cases hf : db.unis.find? (fun q => keyConflict q n c) with
  | some r =>
    rw [upsert_snd_unis_found db n c ac w r hf]
    rw [List.any_eq_true] at h ⊢
    obtain ⟨x, hx, hqx⟩ := h
    exact updateFirst_exists _ _ _ (fun x => keyConflict_applyUpd ac w x n' c') _ ⟨x, hx, hqx⟩
  | none =>
    rw [upsert_snd_unis_none db n c ac w hf]
    simp only [List.any_append, h, Bool.true_or]

theorem hasKey_upsert_self (db : DB) (n cs : List Char) (ac w : Option (List Char)) :
    hasKey (upsert_university db n (some cs) ac w).2 n (some cs) = true := by
  cases hf : db.unis.find? (fun q => keyConflict q n (some cs)) with
  | some r =>
    have hr := List.find?_some hf
    have hm := List.mem_of_find?_eq_some hf
    unfold hasKey
    rw [upsert_snd_unis_found db n (some cs) ac w r hf]
    rw [List.any_eq_true]
    exact updateFirst_exists _ _ _ (fun x => keyConflict_applyUpd ac w x n (some cs)) _ ⟨r, hm, hr⟩
  | none =>
    unfold hasKey
    rw [upsert_snd_unis_none db n (some cs) ac w hf]
    simp [List.any_append, keyConflict]

theorem upsert_length_found (db : DB) (n : List Char) (c ac w : Option (List Char))
    (r : UniRow) (hf : db.unis.find? (fun q => keyConflict q n c) = some r) :
    (upsert_university db n c ac w).2.unis.length = db.unis.length := by
  rw [upsert_snd_unis_found db n c ac w r hf, updateFirst_length]

theorem countP_append_singleton (p : α → Bool) (l : List α) (a : α) :
    (l ++ [a]).countP p = l.countP p + (if p a then 1 else 0) := by
  rw [List.countP_append]
  simp [List.countP_cons]

theorem countKey_upsert (db : DB) (n' cs' : List Char) (n : List Char)
    (c ac w : Option (List Char)) (h : countKey db n' cs' ≤ 1) :
    countKey (upsert_university db n c ac w).2 n' cs' ≤ 1 := by
  unfold countKey at *
  cases hf : db.unis.find? (fun q => keyConflict q n c) with
  | some r =>
    rw [upsert_snd_unis_found db n c ac w r hf]
    rw [updateFirst_countP _ _ _ (fun x => keyConflict_applyUpd ac w x n' (some cs'))]
    exact h
  | none =>
    rw [upsert_snd_unis_none db n c ac w hf, countP_append_singleton]
    cases c with
    | none =>
      have hnew : keyConflict { id := db.nextId, name := n, country := none, alpha_two_code := ac, website := w } n' (some cs') = false := by
        simp [keyConflict]
      rw [hnew]
      simpa using h
    | some c0 =>
      by_cases hb : keyConflict { id := db.nextId, name := n, country := some c0, alpha_two_code := ac, website := w } n' (some cs') = true
      · have hb' := hb
        simp only [keyConflict] at hb'
        rw [Bool.and_eq_true] at hb'
        have hn : n = n' := eq_of_beq hb'.1
        have hc : c0 = cs' := eq_of_beq hb'.2
        have h0 : List.countP (fun r => keyConflict r n' (some cs')) db.unis = 0 := by
          rw [List.countP_eq_zero]
          intro a ha
          have hfa := List.find?_eq_none.mp hf a ha
          rw [← hn, ← hc]
          simpa using hfa
        rw [h0, hb]
        simp
      · have hb' : keyConflict { id := db.nextId, name := n, country := some c0, alpha_two_code := ac, website := w } n' (some cs') = false := by
          simpa using hb
        rw [hb']
        simpa using h

theorem insert_domain_unis (db : DB) (d : List Char) (uid : Nat) (pr : Bool) :
    (insert_domain db d uid pr).unis = db.unis := by
  unfold insert_domain
  split <;> rfl

theorem hasKey_insert_domain (db : DB) (d : List Char) (uid : Nat) (pr : Bool)
    (n : List Char) (c : Option (List Char)) :
    hasKey (insert_domain db d uid pr) n c = hasKey db n c := by
  unfold hasKey
  rw [insert_domain_unis]

theorem insert_domain_of_hasDom (db : DB) (d : List Char) (uid : Nat) (pr : Bool)
    (h : hasDom db d = true) : insert_domain db d uid pr = db := by
  unfold insert_domain
  unfold hasDom at h
  rw [if_pos h]

theorem hasDom_insert_domain_self (db : DB) (d : List Char) (uid : Nat) (pr : Bool) :
    hasDom (insert_domain db d uid pr) d = true := by
  unfold insert_domain
  by_cases h : db.doms.any (fun r => r.domain == d) = true
  · rw [if_pos h]
    exact h
  · rw [if_neg h]
    unfold hasDom
    simp [List.any_append]

theorem hasDom_insert_domain_mono (db : DB) (d' : List Char) (uid : Nat) (pr : Bool)
    (d : List Char) (h : hasDom db d = true) :
    hasDom (insert_domain db d' uid pr) d = true := by
  unfold insert_domain
  split
  · exact h
  · unfold hasDom at *
    simp [List.any_append, h]

/-! ### domain-loop lemmas -/

theorem processDomains_nil (orc : Oracle) (idx uid i : Nat) (acc : DB × Nat) :
    processDomains orc idx uid i acc [] = acc := rfl

theorem processDomains_cons (orc : Oracle) (idx uid i : Nat) (acc : DB × Nat)
    (d : List Char) (rest : List (List Char)) :
    processDomains orc idx uid i acc (d :: rest)
      = processDomains orc idx uid (i+1) (domainStep orc idx uid i acc d) rest := rfl

theorem domainStep_unis (orc : Oracle) (idx uid i : Nat) (acc : DB × Nat) (d : List Char) :
    (domainStep orc idx uid i acc d).1.unis = acc.1.unis := by
  unfold domainStep
  split
  · rfl
  · split
    · rfl
    · exact insert_domain_unis _ _ _ _

theorem processDomains_unis (orc : Oracle) (idx uid : Nat) (ds : List (List Char)) :
    ∀ i acc, (processDomains orc idx uid i acc ds).1.unis = acc.1.unis := by
  induction ds with
  | nil => intro i acc; rfl
  | cons d rest ih =>
    intro i acc
    rw [processDomains_cons, ih]
    exact domainStep_unis orc idx uid i acc d

theorem domainStep_hasDom_mono (orc : Oracle) (idx uid i : Nat) (acc : DB × Nat)
    (d dom : List Char) (h : hasDom acc.1 dom = true) :
    hasDom (domainStep orc idx uid i acc d).1 dom = true := by
  unfold domainStep
  split
  · exact h
  · split
    · exact h
    · exact hasDom_insert_domain_mono _ _ _ _ _ h

theorem processDomains_hasDom_mono (orc : Oracle) (idx uid : Nat) (ds : List (List Char)) :
    ∀ i acc dom, hasDom acc.1 dom = true →
      hasDom (processDomains orc idx uid i acc ds).1 dom = true := by
  induction ds with
  | nil => intro i acc dom h; exact h
  | cons d rest ih =>
    intro i acc dom h
    rw [processDomains_cons]
    exact ih _ _ _ (domainStep_hasDom_mono orc idx uid i acc d dom h)

theorem processDomains_hasKey (orc : Oracle) (idx uid i : Nat) (acc : DB × Nat)
    (ds : List (List Char)) (n : List Char) (c : Option (List Char)) :
    hasKey (processDomains orc idx uid i acc ds).1 n c = hasKey acc.1 n c := by
  unfold hasKey
  rw [processDomains_unis]

theorem processDomains_establish (idx uid : Nat) (ds : List (List Char)) :
    ∀ i acc, ∀ d ∈ ds, normalize_domain d ≠ [] →
      hasDom (processDomains pureOracle idx uid i acc ds).1 (normalize_domain d) = true := by
  induction ds with
  | nil => intro i acc d hd; simp at hd
  | cons d0 rest ih =>
    intro i acc d hd hne
    rw [processDomains_cons]
    rcases List.mem_cons.mp hd with rfl | hdr
    · apply processDomains_hasDom_mono
      unfold domainStep
      rw [if_neg hne]
      show hasDom (insert_domain acc.1 (normalize_domain d) uid (i == 0)) (normalize_domain d) = true
      exact hasDom_insert_domain_self _ _ _ _
    · exact ih _ _ d hdr hne

theorem processDomains_db_noop (orc : Oracle) (idx uid : Nat) (ds : List (List Char)) :
    ∀ i acc, (∀ d ∈ ds, normalize_domain d ≠ [] → hasDom acc.1 (normalize_domain d) = true) →
      (processDomains orc idx uid i acc ds).1 = acc.1 := by
  induction ds with
  | nil => intro i acc _; rfl
  | cons d0 rest ih =>
    intro i acc h
    rw [processDomains_cons]
    have hstep : (domainStep orc idx uid i acc d0).1 = acc.1 := by
      unfold domainStep
      split
      · rfl
      · split
        · rfl
        · exact insert_domain_of_hasDom _ _ _ _ (h d0 (List.mem_cons_self _ _) (by assumption))
    rw [ih _ _ (by intro d hd hne; rw [hstep]; exact h d (List.mem_cons_of_mem _ hd) hne)]
    exact hstep

/-! ### record-level lemmas -/

theorem processEntry_invalid (orc : Oracle) (idx : Nat) (st : RunState) (e : Entry)
    (h : entryName e = []) :
    processEntry orc idx st e = { st with skipped := st.skipped + 1 } := by
  unfold processEntry
  rw [if_pos h]

theorem processEntry_uniFail (orc : Oracle) (idx : Nat) (st : RunState) (e : Entry)
    (h1 : entryName e ≠ []) (h2 : orc.uniFails idx = true) :
    processEntry orc idx st e = { st with skipped := st.skipped + 1 } := by
  unfold processEntry
  rw [if_neg h1, if_pos h2]

theorem processEntry_success (orc : Oracle) (idx : Nat) (st : RunState) (e : Entry)
    (h1 : entryName e ≠ []) (h2 : orc.uniFails idx = false) :
    processEntry orc idx st e
      = { st with db := (recordDomains orc idx st e).1,
                  inserted_unis := st.inserted_unis + 1,
                  inserted_domains := (recordDomains orc idx st e).2 } := by
  unfold processEntry
  rw [if_neg h1, if_neg (by simp [h2])]

theorem recordDomains_unis (orc : Oracle) (idx : Nat) (st : RunState) (e : Entry) :
    (recordDomains orc idx st e).1.unis
      = (upsert_university st.db (entryName e) (entryCountry e) (entryAlpha e) (entryWebsite e)).2.unis := by
  unfold recordDomains
  rw [processDomains_unis]

theorem processEntry_counters (orc : Oracle) (idx : Nat) (st : RunState) (e : Entry) :
    ((processEntry orc idx st e).inserted_unis = st.inserted_unis + 1 ∧
     (processEntry orc idx st e).skipped = st.skipped) ∨
    ((processEntry orc idx st e).inserted_unis = st.inserted_unis ∧
     (processEntry orc idx st e).skipped = st.skipped + 1) := by
  by_cases h1 : entryName e = []
  · right
    rw [processEntry_invalid orc idx st e h1]
    exact ⟨rfl, rfl⟩
  · by_cases h2 : orc.uniFails idx = true
    · right
      rw [processEntry_uniFail orc idx st e h1 h2]
      exact ⟨rfl, rfl⟩
    · left
      rw [processEntry_success orc idx st e h1 (by simpa using h2)]
      exact ⟨rfl, rfl⟩

theorem processEntry_commits (orc : Oracle) (idx : Nat) (st : RunState) (e : Entry) :
    (processEntry orc idx st e).commits = st.commits := by
  by_cases h1 : entryName e = []
  · rw [processEntry_invalid orc idx st e h1]
  · by_cases h2 : orc.uniFails idx = true
    · rw [processEntry_uniFail orc idx st e h1 h2]
    · rw [processEntry_success orc idx st e h1 (by simpa using h2)]

theorem processEntry_hasKey (orc : Oracle) (idx : Nat) (st : RunState) (e : Entry)
    (n : List Char) (c : Option (List Char)) (h : hasKey st.db n c = true) :
    hasKey (processEntry orc idx st e).db n c = true := by
  by_cases h1 : entryName e = []
  · rw [processEntry_invalid orc idx st e h1]
    exact h
  · by_cases h2 : orc.uniFails idx = true
    · rw [processEntry_uniFail orc idx st e h1 h2]
      exact h
    · rw [processEntry_success orc idx st e h1 (by simpa using h2)]
      show hasKey (recordDomains orc idx st e).1 n c = true
      unfold recordDomains
      rw [processDomains_hasKey]
      exact hasKey_upsert _ _ _ _ _ _ _ h

theorem processEntry_hasDom (orc : Oracle) (idx : Nat) (st : RunState) (e : Entry)
    (dom : List Char) (h : hasDom st.db dom = true) :
    hasDom (processEntry orc idx st e).db dom = true := by
  by_cases h1 : entryName e = []
  · rw [processEntry_invalid orc idx st e h1]
    exact h
  · by_cases h2 : orc.uniFails idx = true
    · rw [processEntry_uniFail orc idx st e h1 h2]
      exact h
    · rw [processEntry_success orc idx st e h1 (by simpa using h2)]
      show hasDom (recordDomains orc idx st e).1 dom = true
      unfold recordDomains
      apply processDomains_hasDom_mono
      show hasDom (upsert_university st.db (entryName e) (entryCountry e) (entryAlpha e) (entryWebsite e)).2 dom = true
      rw [hasDom_upsert]
      exact h

/-! ### loop-level lemmas -/

theorem afterRecord_db (st : RunState) : (afterRecord st).db = st.db := by
  unfold afterRecord
  split <;> rfl

theorem afterRecord_inserted_unis (st : RunState) :
    (afterRecord st).inserted_unis = st.inserted_unis := by
  unfold afterRecord
  split <;> rfl

theorem afterRecord_inserted_domains (st : RunState) :
    (afterRecord st).inserted_domains = st.inserted_domains := by
  unfold afterRecord
  split <;> rfl

theorem afterRecord_skipped (st : RunState) : (afterRecord st).skipped = st.skipped := by
  unfold afterRecord
  split <;> rfl

theorem afterRecord_commits_pos (st : RunState) (h : st.inserted_unis % 500 = 0) :
    (afterRecord st).commits = st.commits ++ [(st.inserted_unis, st.inserted_domains)] := by
  unfold afterRecord
  rw [if_pos (by simp [h])]

theorem afterRecord_commits_neg (st : RunState) (h : st.inserted_unis % 500 ≠ 0) :
    (afterRecord st).commits = st.commits := by
  unfold afterRecord
  rw [if_neg (by simpa using h)]

theorem recordStep_db (orc : Oracle) (idx : Nat) (st : RunState) (e : Entry) :
    (recordStep orc idx st e).db = (processEntry orc idx st e).db := by
  unfold recordStep
  split
  · rfl
  · exact afterRecord_db _

theorem recordStep_inserted_unis (orc : Oracle) (idx : Nat) (st : RunState) (e : Entry) :
    (recordStep orc idx st e).inserted_unis = (processEntry orc idx st e).inserted_unis := by
  unfold recordStep
  split
  · rfl
  · exact afterRecord_inserted_unis _

theorem recordStep_inserted_domains (orc : Oracle) (idx : Nat) (st : RunState) (e : Entry) :
    (recordStep orc idx st e).inserted_domains = (processEntry orc idx st e).inserted_domains := by
  unfold recordStep
  split
  · rfl
  · exact afterRecord_inserted_domains _

theorem recordStep_skipped (orc : Oracle) (idx : Nat) (st : RunState) (e : Entry) :
    (recordStep orc idx st e).skipped = (processEntry orc idx st e).skipped := by
  unfold recordStep
  split
  · rfl
  · exact afterRecord_skipped _

theorem processList_nil (orc : Oracle) (idx : Nat) (st : RunState) :
    processList orc idx st [] = st := rfl

theorem processList_cons (orc : Oracle) (idx : Nat) (st : RunState) (e : Entry)
    (rest : List Entry) :
    processList orc idx st (e :: rest)
      = processList orc (idx+1) (recordStep orc idx st e) rest := rfl

/-! ### covered records -/

theorem covered_mono (e : Entry) (db db' : DB)
    (hk : hasKey db (entryName e) (entryCountry e) = true →
          hasKey db' (entryName e) (entryCountry e) = true)
    (hd : ∀ dom, hasDom db dom = true → hasDom db' dom = true)
    (h : covered db e) : covered db' e := by
  rcases h with h | ⟨hs, hkey, hdom⟩
  · exact Or.inl h
  · exact Or.inr ⟨hs, hk hkey, fun d hdm hne => hd _ (hdom d hdm hne)⟩

theorem processEntry_covered (orc : Oracle) (idx : Nat) (st : RunState) (e : Entry)
    (e' : Entry) (h : covered st.db e') :
    covered (processEntry orc idx st e).db e' :=
  covered_mono e' st.db _ (processEntry_hasKey orc idx st e _ _)
    (fun dom => processEntry_hasDom orc idx st e dom) h

theorem recordStep_covered (orc : Oracle) (idx : Nat) (st : RunState) (e : Entry)
    (e' : Entry) (h : covered st.db e') :
    covered (recordStep orc idx st e).db e' := by
  rw [recordStep_db]
  exact processEntry_covered orc idx st e e' h

theorem processList_covered (orc : Oracle) (es : List Entry) :
    ∀ idx st e', covered st.db e' → covered (processList orc idx st es).db e' := by
  induction es with
  | nil => intro idx st e' h; exact h
  | cons e rest ih =>
    intro idx st e' h
    rw [processList_cons]
    exact ih _ _ e' (recordStep_covered orc idx st e e' h)

theorem processEntry_establishes (idx : Nat) (st : RunState) (e : Entry)
    (h1 : entryName e ≠ []) (hc : (entryCountry e).isSome = true) :
    covered (processEntry pureOracle idx st e).db e := by
  have h2 : pureOracle.uniFails idx = false := rfl
  rw [processEntry_success pureOracle idx st e h1 h2]
  obtain ⟨cs, hcs⟩ := Option.isSome_iff_exists.mp hc
  refine Or.inr ⟨hc, ?_, ?_⟩
  · show hasKey (recordDomains pureOracle idx st e).1 (entryName e) (entryCountry e) = true
    unfold recordDomains
    rw [processDomains_hasKey]
    show hasKey (upsert_university st.db (entryName e) (entryCountry e) (entryAlpha e) (entryWebsite e)).2 (entryName e) (entryCountry e) = true
    rw [hcs]
    exact hasKey_upsert_self _ _ _ _ _
  · intro d hd hne
    show hasDom (recordDomains pureOracle idx st e).1 (normalize_domain d) = true
    unfold recordDomains
    exact processDomains_establish idx _ (entryDomains e) 0 _ d hd hne

theorem processList_covers (es : List Entry) :
    ∀ idx st, allCountryOk es = true →
      ∀ e ∈ es, covered (processList pureOracle idx st es).db e := by
  induction es with
  | nil => intro idx st _ e he; simp at he
  | cons e0 rest ih =>
    intro idx st hok e he
    have hok' : (entryName e0 == ([] : List Char) || (entryCountry e0).isSome) = true
        ∧ allCountryOk rest = true := by
      unfold allCountryOk at hok
      rw [List.all_cons, Bool.and_eq_true] at hok
      exact hok
    rw [processList_cons]
    rcases List.mem_cons.mp he with rfl | her
    · by_cases hval : entryName e = []
      · exact Or.inl hval
      · have hc : (entryCountry e).isSome = true := by
          rcases Bool.or_eq_true_iff.mp hok'.1 with h | h
          · exact absurd (by simpa using h) hval
          · exact h
        apply processList_covered
        rw [recordStep_db]
        exact processEntry_establishes idx st e hval hc
    · exact ih (idx+1) _ hok'.2 e her

/-! ### no-growth on covered records -/

theorem processEntry_nogrowth (idx : Nat) (st : RunState) (e : Entry)
    (h : covered st.db e) :
    (processEntry pureOracle idx st e).db.unis.length = st.db.unis.length ∧
    (processEntry pureOracle idx st e).db.doms.length = st.db.doms.length := by
  by_cases h1 : entryName e = []
  · rw [processEntry_invalid _ _ _ _ h1]
    exact ⟨rfl, rfl⟩
  · rcases h with h | ⟨hs, hkey, hdom⟩
    · exact absurd h h1
    · rw [processEntry_success pureOracle idx st e h1 rfl]
      have hkey' : st.db.unis.any
          (fun r => keyConflict r (entryName e) (entryCountry e)) = true := hkey
      obtain ⟨r, hr⟩ := find?_of_any _ _ hkey'
      constructor
      · show (recordDomains pureOracle idx st e).1.unis.length = st.db.unis.length
        rw [recordDomains_unis]
        exact upsert_length_found _ _ _ _ _ r hr
      · show (recordDomains pureOracle idx st e).1.doms.length = st.db.doms.length
        unfold recordDomains
        rw [processDomains_db_noop]
        · show (upsert_university st.db (entryName e) (entryCountry e) (entryAlpha e) (entryWebsite e)).2.doms.length = st.db.doms.length
          rw [upsert_doms]
        · intro d hd hne
          show hasDom (upsert_university st.db (entryName e) (entryCountry e) (entryAlpha e) (entryWebsite e)).2 (normalize_domain d) = true
          rw [hasDom_upsert]
          exact hdom d hd hne

theorem processList_nogrowth (es : List Entry) :
    ∀ idx st, (∀ e ∈ es, covered st.db e) →
      (processList pureOracle idx st es).db.unis.length = st.db.unis.length ∧
      (processList pureOracle idx st es).db.doms.length = st.db.doms.length := by
  induction es with
  | nil => intro idx st _; exact ⟨rfl, rfl⟩
  | cons e rest ih =>
    intro idx st h
    rw [processList_cons]
    have h0 := processEntry_nogrowth idx st e (h e (List.mem_cons_self _ _))
    have hrec_db : (recordStep pureOracle idx st e).db
        = (processEntry pureOracle idx st e).db := recordStep_db _ _ _ _
    have hcov : ∀ e' ∈ rest, covered (recordStep pureOracle idx st e).db e' := by
      intro e' he'
      rw [hrec_db]
      exact processEntry_covered _ _ _ _ _ (h e' (List.mem_cons_of_mem _ he'))
    obtain ⟨ih1, ih2⟩ := ih (idx+1) (recordStep pureOracle idx st e) hcov
    constructor
    · rw [ih1, hrec_db]
      exact h0.1
    · rw [ih2, hrec_db]
      exact h0.2

/-! ### key-uniqueness invariant -/

theorem countKey_processEntry (orc : Oracle) (idx : Nat) (st : RunState) (e : Entry)
    (n cs : List Char) (h : countKey st.db n cs ≤ 1) :
    countKey (processEntry orc idx st e).db n cs ≤ 1 := by
  by_cases h1 : entryName e = []
  · rw [processEntry_invalid orc idx st e h1]
    exact h
  · by_cases h2 : orc.uniFails idx = true
    · rw [processEntry_uniFail orc idx st e h1 h2]
      exact h
    · rw [processEntry_success orc idx st e h1 (by simpa using h2)]
      show countKey (recordDomains orc idx st e).1 n cs ≤ 1
      have hu : countKey (recordDomains orc idx st e).1 n cs
          = countKey (upsert_university st.db (entryName e) (entryCountry e) (entryAlpha e) (entryWebsite e)).2 n cs := by
        unfold countKey
        rw [recordDomains_unis]
      rw [hu]
      exact countKey_upsert _ _ _ _ _ _ _ h

theorem countKey_processList (orc : Oracle) (es : List Entry) :
    ∀ idx st n cs, countKey st.db n cs ≤ 1 →
      countKey (processList orc idx st es).db n cs ≤ 1 := by
  induction es with
  | nil => intro idx st n cs h; exact h
  | cons e rest ih =>
    intro idx st n cs h
    rw [processList_cons]
    apply ih
    have : (recordStep orc idx st e).db = (processEntry orc idx st e).db := recordStep_db _ _ _ _
    rw [this]
    exact countKey_processEntry orc idx st e n cs h

/-! ### recordStep shape lemmas -/

theorem recordStep_invalid (orc : Oracle) (idx : Nat) (st : RunState) (e : Entry)
    (h : entryName e = []) :
    recordStep orc idx st e = { st with skipped := st.skipped + 1 } := by
  unfold recordStep
  rw [if_pos h]
  exact processEntry_invalid orc idx st e h

theorem recordStep_valid (orc : Oracle) (idx : Nat) (st : RunState) (e : Entry)
    (h : entryName e ≠ []) :
    recordStep orc idx st e = afterRecord (processEntry orc idx st e) := by
  unfold recordStep
  rw [if_neg h]

/-! ### repeated-upsert lemmas -/

theorem foldUpserts_nil (db : DB) (n : List Char) (c : Option (List Char)) :
    foldUpserts db n c [] = db := rfl

theorem foldUpserts_cons (db : DB) (n : List Char) (c : Option (List Char))
    (p : Option (List Char) × Option (List Char))
    (ps : List (Option (List Char) × Option (List Char))) :
    foldUpserts db n c (p :: ps) = foldUpserts (upsert_university db n c p.1 p.2).2 n c ps := rfl

theorem foldUpserts_find (n cs : List Char)
    (ps : List (Option (List Char) × Option (List Char))) :
    ∀ db r, db.unis.find? (fun q => keyConflict q n (some cs)) = some r →
      (foldUpserts db n (some cs) ps).unis.find? (fun q => keyConflict q n (some cs))
        = some (ps.foldl (fun q p => applyUpd p.1 p.2 q) r) := by
  induction ps with
  | nil => intro db r h; exact h
  | cons p ps ih =>
    intro db r h
    rw [foldUpserts_cons, List.foldl_cons]
    apply ih
    rw [upsert_snd_unis_found db n (some cs) p.1 p.2 r h]
    exact find?_updateFirst _ _ _ _ h (fun x => keyConflict_applyUpd p.1 p.2 x n (some cs))

theorem foldUpd_id (ps : List (Option (List Char) × Option (List Char))) :
    ∀ r : UniRow, (ps.foldl (fun q p => applyUpd p.1 p.2 q) r).id = r.id := by
  induction ps with
  | nil => intro r; rfl
  | cons p ps ih =>
    intro r
    rw [List.foldl_cons, ih]
    rfl

theorem foldUpd_name (ps : List (Option (List Char) × Option (List Char))) :
    ∀ r : UniRow, (ps.foldl (fun q p => applyUpd p.1 p.2 q) r).name = r.name := by
  induction ps with
  | nil => intro r; rfl
  | cons p ps ih =>
    intro r
    rw [List.foldl_cons, ih]
    rfl

theorem foldUpd_country (ps : List (Option (List Char) × Option (List Char))) :
    ∀ r : UniRow, (ps.foldl (fun q p => applyUpd p.1 p.2 q) r).country = r.country := by
  induction ps with
  | nil => intro r; rfl
  | cons p ps ih =>
    intro r
    rw [List.foldl_cons, ih]
    rfl

theorem foldUpd_website (ps : List (Option (List Char) × Option (List Char))) :
    ∀ r : UniRow, (ps.foldl (fun q p => applyUpd p.1 p.2 q) r).website
      = coalesce (lastNonNull (ps.map Prod.snd)) r.website := by
  induction ps with
  | nil => intro r; rfl
  | cons p ps ih =>
    intro r
    rw [List.foldl_cons, ih]
    show coalesce (lastNonNull (ps.map Prod.snd)) (coalesce p.2 r.website)
      = coalesce (lastNonNull (p.2 :: ps.map Prod.snd)) r.website
    exact coalesce_lastNonNull _ _ _

theorem foldUpd_alpha (ps : List (Option (List Char) × Option (List Char))) :
    ∀ r : UniRow, (ps.foldl (fun q p => applyUpd p.1 p.2 q) r).alpha_two_code
      = coalesce (lastNonNull (ps.map Prod.fst)) r.alpha_two_code := by
  induction ps with
  | nil => intro r; rfl
  | cons p ps ih =>
    intro r
    rw [List.foldl_cons, ih]
    show coalesce (lastNonNull (ps.map Prod.fst)) (coalesce p.1 r.alpha_two_code)
      = coalesce (lastNonNull (p.1 :: ps.map Prod.fst)) r.alpha_two_code
    exact coalesce_lastNonNull _ _ _

/-! ### provenance of domain rows -/

theorem processDomains_mem_doms (orc : Oracle) (idx uid : Nat) (ds : List (List Char)) :
    ∀ i acc (r : DomainRow), r ∈ (processDomains orc idx uid i acc ds).1.doms →
      r ∈ acc.1.doms ∨
        ∃ j, ∃ hj : j < ds.length,
          r.domain = normalize_domain (ds.get ⟨j, hj⟩) ∧
          r.university_id = uid ∧ (r.is_primary = true ↔ i + j = 0) := by
  induction ds with
  | nil => intro i acc r h; exact Or.inl h
  | cons d0 rest ih =>
    intro i acc r h
    rw [processDomains_cons] at h
    rcases ih (i+1) _ r h with hmem | ⟨j, hj, hd, hu, hp⟩
    · unfold domainStep at hmem
      by_cases hne : normalize_domain d0 = []
      · rw [if_pos hne] at hmem
        exact Or.inl hmem
      · rw [if_neg hne] at hmem
        by_cases hfail : orc.domFails idx i = true
        · rw [if_pos hfail] at hmem
          exact Or.inl hmem
        · rw [if_neg hfail] at hmem
          have hmem' : r ∈ (insert_domain acc.1 (normalize_domain d0) uid (i == 0)).doms := hmem
          unfold insert_domain at hmem'
          by_cases hex : acc.1.doms.any (fun q => q.domain == normalize_domain d0) = true
          · rw [if_pos hex] at hmem'
            exact Or.inl hmem'
          · rw [if_neg hex] at hmem'
            have hmem2 : r ∈ acc.1.doms ++
                [{ domain := normalize_domain d0, university_id := uid, is_primary := (i == 0) }] := hmem'
            rcases List.mem_append.mp hmem2 with hl | hr
            · exact Or.inl hl
            · have hreq := List.mem_singleton.mp hr
              refine Or.inr ⟨0, Nat.succ_pos rest.length, ?_, ?_, ?_⟩
              · rw [hreq]
                rfl
              · rw [hreq]
              · rw [hreq]
                show ((i == 0) = true ↔ i + 0 = 0)
                rw [Nat.add_zero]
                exact beq_iff_eq
    · refine Or.inr ⟨j + 1, by simpa using Nat.succ_lt_succ hj, ?_, hu, ?_⟩
      · simpa using hd
      · have harith : i + (j + 1) = (i + 1) + j := by omega
        rw [harith]
        exact hp

/-! ### counter bookkeeping -/

theorem processEntry_sum (orc : Oracle) (idx : Nat) (st : RunState) (e : Entry) :
    (processEntry orc idx st e).inserted_unis + (processEntry orc idx st e).skipped
      = st.inserted_unis + st.skipped + 1 := by
  rcases processEntry_counters orc idx st e with ⟨h1, h2⟩ | ⟨h1, h2⟩ <;> rw [h1, h2] <;> omega

theorem processList_sum (orc : Oracle) (es : List Entry) :
    ∀ idx st, (processList orc idx st es).inserted_unis + (processList orc idx st es).skipped
      = st.inserted_unis + st.skipped + es.length := by
  induction es with
  | nil => intro idx st; rfl
  | cons e rest ih =>
    intro idx st
    rw [processList_cons, ih (idx+1) (recordStep orc idx st e),
        recordStep_inserted_unis, recordStep_skipped, processEntry_sum]
    simp [List.length_cons]
    omega

theorem runImport_counters (orc : Oracle) (es : List Entry) :
    (runImport orc es).inserted_unis = (processList orc 1 initState es).inserted_unis ∧
    (runImport orc es).skipped = (processList orc 1 initState es).skipped := ⟨rfl, rfl⟩

/-! ### scheme helper lemmas -/

theorem removeSub_http_prefix (X : List Char) :
    removeSub "http://".toList ("http://".toList ++ X) = removeSub "http://".toList X :=
  removeSub_cons_self 'h' "ttp://".toList X

theorem removeSub_https_prefix (X : List Char) :
    removeSub "https://".toList ("https://".toList ++ X) = removeSub "https://".toList X :=
  removeSub_cons_self 'h' "ttps://".toList X

theorem removeSub_http_skips_https (X : List Char) :
    removeSub "http://".toList ("https://".toList ++ X)
      = "https://".toList ++ removeSub "http://".toList X := rfl

theorem hasSubstr_https_http (X : List Char) :
    hasSubstr "http://".toList ("https://".toList ++ X) = hasSubstr "http://".toList X := rfl

/-! ### normalize_domain stage lemmas -/

theorem normalize_domain_eq (d : List Char) :
    normalize_domain d =
      (if (stripSlash (removeSub "https://".toList (removeSub "http://".toList ((stripWS d).map Char.toLower)))).length > 255
       then (stripSlash (removeSub "https://".toList (removeSub "http://".toList ((stripWS d).map Char.toLower)))).take 255
       else stripSlash (removeSub "https://".toList (removeSub "http://".toList ((stripWS d).map Char.toLower)))) := rfl

theorem normalize_scheme_strip (scheme rest : List Char)
    (hs : scheme = "http://".toList ∨ scheme = "https://".toList)
    (h2 : hasSubstr "http://".toList (rest.map Char.toLower ++ ['/']) = false)
    (h3 : hasSubstr "https://".toList (rest.map Char.toLower ++ ['/']) = false)
    (h4 : (rest.map Char.toLower).head? ≠ some '/')
    (h5 : (rest.map Char.toLower).getLast? ≠ some '/')
    (h6 : rest.length ≤ 255) :
    normalize_domain (scheme ++ (rest ++ ['/'])) = rest.map Char.toLower := by
  have hws : stripWS (scheme ++ (rest ++ ['/'])) = scheme ++ (rest ++ ['/']) := by
    apply stripBoth_eq_self
    · intro c hc
      have hh : (scheme ++ (rest ++ ['/'])).head? = some 'h' := by
        rcases hs with rfl | rfl <;> rfl
      rw [hh] at hc
      injection hc with hc
      rw [← hc]
      rfl
    · intro c hc
      have hl : (scheme ++ (rest ++ ['/'])).getLast? = some '/' := by
        rw [← List.append_assoc, List.getLast?_concat]
      rw [hl] at hc
      injection hc with hc
      rw [← hc]
      rfl
  have hlen : ¬ ((rest.map Char.toLower).length > 255) := by
    rw [List.length_map]
    omega
  rw [normalize_domain_eq, hws]
  rcases hs with rfl | rfl
  · have hmap : (("http://".toList ++ (rest ++ ['/'])).map Char.toLower)
        = "http://".toList ++ (rest.map Char.toLower ++ ['/']) := by
      rw [List.map_append, List.map_append]
      rfl
    rw [hmap, removeSub_http_prefix, removeSub_of_not_hasSubstr _ _ h2,
        removeSub_of_not_hasSubstr _ _ h3, stripSlash_append_slash _ h4 h5, if_neg hlen]
  · have hmap : (("https://".toList ++ (rest ++ ['/'])).map Char.toLower)
        = "https://".toList ++ (rest.map Char.toLower ++ ['/']) := by
      rw [List.map_append, List.map_append]
      rfl
    rw [hmap, removeSub_http_skips_https, removeSub_of_not_hasSubstr _ _ h2,
        removeSub_https_prefix, removeSub_of_not_hasSubstr _ _ h3,
        stripSlash_append_slash _ h4 h5, if_neg hlen]

/-! ### Claim theorems -/

/-- C1 counterexample: two identical records with name "A" and an absent
country. The claim predicts one universities row; the code produces two,
because the ON CONFLICT (name, country) arbiter never fires on a NULL
country (PostgreSQL unique constraints treat NULLs as distinct), so the
second record inserts a fresh row and a re-import grows the table. -/
theorem C1_null_country_counterexample :
    (runImport pureOracle [noCountryA, noCountryA]).db.unis.length = 2 ∧
    (runImport pureOracle [noCountryA, noCountryA]).db.unis.countP
      (fun r => r.name == "A".toList) = 2 ∧
    (runImport pureOracle [noCountryA]).db.unis.length = 1 := by decide

/-- C1 (amended): the dedupe and re-import guarantees hold for datasets in
which every record that passes validation carries a present (non-null)
country: re-importing such a dataset a second time leaves the row counts of
both tables unchanged, at most one universities row ever matches a given
(name, present country) pair, and two concrete identical records with a
present country collapse to exactly one row. With country absent in both
records the guarantee fails (see the counterexample). -/
theorem C1_dedupe_amended (es : List Entry) (n cs : List Char)
    (H : allCountryOk es = true) :
    (processList pureOracle 1 { initState with db := (processList pureOracle 1 initState es).db } es).db.unis.length
      = (processList pureOracle 1 initState es).db.unis.length ∧
    (processList pureOracle 1 { initState with db := (processList pureOracle 1 initState es).db } es).db.doms.length
      = (processList pureOracle 1 initState es).db.doms.length ∧
    countKey (processList pureOracle 1 initState es).db n cs ≤ 1 ∧
    ((runImport pureOracle [goodA, goodA]).db.unis.length = 1 ∧
     countKey (runImport pureOracle [goodA, goodA]).db "A".toList "US".toList = 1) := by
  have hcov := processList_covers es 1 initState H
  have hng := processList_nogrowth es 1
    { initState with db := (processList pureOracle 1 initState es).db }
    (fun e he => hcov e he)
  refine ⟨hng.1, hng.2, ?_, by decide⟩
  apply countKey_processList
  exact Nat.zero_le 1

theorem C1_dedupe_amended_witness :
    allCountryOk [goodA, goodB] = true ∧
    ((processList pureOracle 1 { initState with db := (processList pureOracle 1 initState [goodA, goodB]).db } [goodA, goodB]).db.unis.length
       = (processList pureOracle 1 initState [goodA, goodB]).db.unis.length ∧
     (processList pureOracle 1 { initState with db := (processList pureOracle 1 initState [goodA, goodB]).db } [goodA, goodB]).db.doms.length
       = (processList pureOracle 1 initState [goodA, goodB]).db.doms.length ∧
     countKey (processList pureOracle 1 initState [goodA, goodB]).db "A".toList "US".toList ≤ 1 ∧
     ((runImport pureOracle [goodA, goodA]).db.unis.length = 1 ∧
      countKey (runImport pureOracle [goodA, goodA]).db "A".toList "US".toList = 1)) :=
  ⟨by decide, C1_dedupe_amended [goodA, goodB] "A".toList "US".toList (by decide)⟩

/-- C2: a record that fails validation (empty trimmed name) or whose
university upsert raises leaves the database exactly as it was, increments
skipped by one, and the loop continues with the next record; in the sandwich
scenario both valid neighbours land, the malformed record appears in neither
table, and exactly one skip is recorded. The validation path reaches its
continue statement and bypasses the batch-commit check; the exception path
falls through to it. -/
theorem C2_record_isolation (orc : Oracle) (idx : Nat) (st : RunState) (e : Entry)
    (rest : List Entry) :
    (entryName e = [] →
      processEntry orc idx st e = { st with skipped := st.skipped + 1 } ∧
      processList orc idx st (e :: rest)
        = processList orc (idx+1) { st with skipped := st.skipped + 1 } rest) ∧
    (entryName e ≠ [] → orc.uniFails idx = true →
      processEntry orc idx st e = { st with skipped := st.skipped + 1 } ∧
      processList orc idx st (e :: rest)
        = processList orc (idx+1) (afterRecord { st with skipped := st.skipped + 1 }) rest) ∧
    ((runImport pureOracle [goodA, badE, goodB]).db.unis.length = 2 ∧
     (runImport pureOracle [goodA, badE, goodB]).skipped = 1 ∧
     (runImport pureOracle [goodA, badE, goodB]).inserted_unis = 2 ∧
     hasDom (runImport pureOracle [goodA, badE, goodB]).db "bad.edu".toList = false ∧
     (runImport pureOracle [goodA, badE, goodB]).db.unis.countP
       (fun r => r.name == ([] : List Char)) = 0) := by
  refine ⟨?_, ?_, by decide⟩
  · intro h
    refine ⟨processEntry_invalid orc idx st e h, ?_⟩
    rw [processList_cons, recordStep_invalid orc idx st e h]
  · intro h1 h2
    refine ⟨processEntry_uniFail orc idx st e h1 h2, ?_⟩
    rw [processList_cons, recordStep_valid orc idx st e h1,
        processEntry_uniFail orc idx st e h1 h2]

theorem C2_record_isolation_witness :
    entryName badE = [] ∧
    (processEntry pureOracle 1 initState badE
       = { initState with skipped := initState.skipped + 1 } ∧
     processList pureOracle 1 initState [badE, goodA]
       = processList pureOracle (1+1) { initState with skipped := initState.skipped + 1 } [goodA]) :=
  ⟨by decide, (C2_record_isolation pureOracle 1 initState badE [goodA]).1 (by decide)⟩

/-- C3: across any sequence of upserts against an existing row for the same
(name, present country) pair, id, name and country are never altered, the
stored website and country-code each equal the most recently supplied
non-null value (falling back to the pre-existing value), and a stored
non-null website is never overwritten with null. -/
theorem C3_coalesce_updates (db : DB) (n cs : List Char)
    (ps : List (Option (List Char) × Option (List Char))) (r : UniRow)
    (h : db.unis.find? (fun q => keyConflict q n (some cs)) = some r) :
    ((foldUpserts db n (some cs) ps).unis.find? (fun q => keyConflict q n (some cs))).map
        (fun q => (q.id, q.name, q.country, q.alpha_two_code, q.website))
      = some (r.id, r.name, r.country,
              coalesce (lastNonNull (ps.map Prod.fst)) r.alpha_two_code,
              coalesce (lastNonNull (ps.map Prod.snd)) r.website) ∧
    (r.website ≠ none →
      coalesce (lastNonNull (ps.map Prod.snd)) r.website ≠ none) := by
  constructor
  · rw [foldUpserts_find n cs ps db r h]
    simp only [Option.map_some']
    rw [foldUpd_id, foldUpd_name, foldUpd_country, foldUpd_alpha, foldUpd_website]
  · intro hw
    cases hlast : lastNonNull (ps.map Prod.snd) with
    | none => simpa [coalesce] using hw
    | some v => simp [coalesce]

theorem C3_coalesce_updates_witness :
    (({ unis := [{ id := 1, name := "A".toList, country := some "US".toList, alpha_two_code := none, website := some "w1".toList }], doms := [], nextId := 2 } : DB).unis.find?
        (fun q => keyConflict q "A".toList (some "US".toList))
      = some { id := 1, name := "A".toList, country := some "US".toList, alpha_two_code := none, website := some "w1".toList }) ∧
    (((foldUpserts { unis := [{ id := 1, name := "A".toList, country := some "US".toList, alpha_two_code := none, website := some "w1".toList }], doms := [], nextId := 2 } "A".toList (some "US".toList) [(none, none), (none, some "w2".toList)]).unis.find?
         (fun q => keyConflict q "A".toList (some "US".toList))).map
        (fun q => (q.id, q.name, q.country, q.alpha_two_code, q.website))
      = some (1, "A".toList, some "US".toList, none, some "w2".toList) ∧
     ((some "w1".toList : Option (List Char)) ≠ none →
       (some "w2".toList : Option (List Char)) ≠ none)) :=
  ⟨by decide,
   C3_coalesce_updates
     { unis := [{ id := 1, name := "A".toList, country := some "US".toList, alpha_two_code := none, website := some "w1".toList }], doms := [], nextId := 2 }
     "A".toList "US".toList [(none, none), (none, some "w2".toList)]
     { id := 1, name := "A".toList, country := some "US".toList, alpha_two_code := none, website := some "w1".toList }
     (by decide)⟩

/-- C4 counterexample: the universities-processed counter is 0 after the
first record's upsert raises, yet the loop body still commits and prints a
progress line, because (0 % 500) == 0 holds in the code's check; the claim
says no mid-run commit occurs while the counter is zero. -/
theorem C4_zero_counter_commit :
    (processList failFirst 1 initState [goodA]).commits = [(0, 0)] ∧
    (processList failFirst 1 initState [goodA]).inserted_unis = 0 ∧
    (processList failFirst 1 initState [goodA]).skipped = 1 := by decide

/-- C4 (amended): after a record that did not take the validation-skip
continue, the driver commits and emits a progress line exactly when the
universities-processed counter is congruent to 0 mod 500 — including the
value 0 itself; a validation-skipped record bypasses the check entirely;
and a final commit is always appended after the last record. -/
theorem C4_batch_commit_amended (orc : Oracle) (idx : Nat) (st : RunState) (e : Entry)
    (es : List Entry) :
    (entryName e = [] → (recordStep orc idx st e).commits = st.commits) ∧
    (entryName e ≠ [] → (processEntry orc idx st e).inserted_unis % 500 = 0 →
      (recordStep orc idx st e).commits
        = st.commits ++ [((processEntry orc idx st e).inserted_unis,
                          (processEntry orc idx st e).inserted_domains)]) ∧
    (entryName e ≠ [] → (processEntry orc idx st e).inserted_unis % 500 ≠ 0 →
      (recordStep orc idx st e).commits = st.commits) ∧
    (runImport orc es).commits
      = (processList orc 1 initState es).commits
        ++ [((processList orc 1 initState es).inserted_unis,
             (processList orc 1 initState es).inserted_domains)] := by
  refine ⟨?_, ?_, ?_, rfl⟩
  · intro h
    rw [recordStep_invalid orc idx st e h]
  · intro h1 h2
    rw [recordStep_valid orc idx st e h1, afterRecord_commits_pos _ h2, processEntry_commits]
  · intro h1 h2
    rw [recordStep_valid orc idx st e h1, afterRecord_commits_neg _ h2, processEntry_commits]

theorem C4_batch_commit_amended_witness :
    entryName goodA ≠ [] ∧
    (processEntry pureOracle 1 { initState with inserted_unis := 499 } goodA).inserted_unis % 500 = 0 ∧
    (recordStep pureOracle 1 { initState with inserted_unis := 499 } goodA).commits
      = { initState with inserted_unis := 499 }.commits
        ++ [((processEntry pureOracle 1 { initState with inserted_unis := 499 } goodA).inserted_unis,
             (processEntry pureOracle 1 { initState with inserted_unis := 499 } goodA).inserted_domains)] :=
  ⟨by decide, by decide,
   (C4_batch_commit_amended pureOracle 1 { initState with inserted_unis := 499 } goodA []).2.1
     (by decide) (by decide)⟩

/-- C5: a domain-insert attempt for a domain string already present in the
table (from any record, for any university) leaves the whole database
unchanged — in particular the existing row's owner and is-primary flag —
takes the non-error path, and still increments the domains insert-attempt
counter by one. -/
theorem C5_domain_noop (orc : Oracle) (idx uid i cnt : Nat) (db : DB) (d : List Char)
    (h1 : hasDom db (normalize_domain d) = true)
    (h2 : normalize_domain d ≠ [])
    (h3 : orc.domFails idx i = false) :
    domainStep orc idx uid i (db, cnt) d = (db, cnt + 1) := by
  unfold domainStep
  rw [if_neg h2, if_neg (by simp [h3])]
  show (insert_domain db (normalize_domain d) uid (i == 0), cnt + 1) = (db, cnt + 1)
  rw [insert_domain_of_hasDom _ _ _ _ h1]

theorem C5_domain_noop_witness :
    hasDom { unis := [], doms := [{ domain := "a.edu".toList, university_id := 1, is_primary := true }], nextId := 2 } (normalize_domain "a.edu".toList) = true ∧
    normalize_domain "a.edu".toList ≠ [] ∧
    pureOracle.domFails 1 3 = false ∧
    domainStep pureOracle 1 9 3
      ({ unis := [], doms := [{ domain := "a.edu".toList, university_id := 1, is_primary := true }], nextId := 2 }, 5) "a.edu".toList
      = ({ unis := [], doms := [{ domain := "a.edu".toList, university_id := 1, is_primary := true }], nextId := 2 }, 5 + 1) :=
  ⟨by decide, by decide, rfl,
   C5_domain_noop pureOracle 1 9 3 5
     { unis := [], doms := [{ domain := "a.edu".toList, university_id := 1, is_primary := true }], nextId := 2 }
     "a.edu".toList (by decide) (by decide) rfl⟩

/-- C6: when the university upsert of a record succeeded, domain-insert
failures of that record change nothing about its success: the record is not
counted as skipped, the universities-processed counter still increments, the
universities table equals what the upsert alone produced (the upsert is
never rolled back by a domain failure), and a failing domain insert leaves
the accumulator unchanged while the loop continues with the remaining
domains. -/
theorem C6_domain_failure_isolated (orc : Oracle) (idx : Nat) (st : RunState) (e : Entry)
    (uid i : Nat) (acc : DB × Nat) (d : List Char) (rest : List (List Char))
    (h1 : entryName e ≠ []) (h2 : orc.uniFails idx = false) :
    (processEntry orc idx st e).skipped = st.skipped ∧
    (processEntry orc idx st e).inserted_unis = st.inserted_unis + 1 ∧
    (processEntry orc idx st e).db.unis
      = (upsert_university st.db (entryName e) (entryCountry e) (entryAlpha e) (entryWebsite e)).2.unis ∧
    (orc.domFails idx i = true →
      processDomains orc idx uid i acc (d :: rest)
        = processDomains orc idx uid (i+1) acc rest) := by
  rw [processEntry_success orc idx st e h1 h2]
  refine ⟨rfl, rfl, ?_, ?_⟩
  · show (recordDomains orc idx st e).1.unis = _
    exact recordDomains_unis orc idx st e
  · intro hfail
    rw [processDomains_cons]
    have hstep : domainStep orc idx uid i acc d = acc := by
      unfold domainStep
      by_cases hne : normalize_domain d = []
      · rw [if_pos hne]
      · rw [if_neg hne, if_pos hfail]
    rw [hstep]

theorem C6_domain_failure_isolated_witness :
    entryName goodA ≠ [] ∧ domFail1.uniFails 1 = false ∧
    ((processEntry domFail1 1 initState goodA).skipped = initState.skipped ∧
     (processEntry domFail1 1 initState goodA).inserted_unis = initState.inserted_unis + 1 ∧
     (processEntry domFail1 1 initState goodA).db.unis
       = (upsert_university initState.db (entryName goodA) (entryCountry goodA) (entryAlpha goodA) (entryWebsite goodA)).2.unis ∧
     (domFail1.domFails 1 1 = true →
       processDomains domFail1 1 7 1 (emptyDB, 0) ("x.edu".toList :: ["y.edu".toList])
         = processDomains domFail1 1 7 (1+1) (emptyDB, 0) ["y.edu".toList])) :=
  ⟨by decide, rfl,
   C6_domain_failure_isolated domFail1 1 initState goodA 7 1 (emptyDB, 0)
     "x.edu".toList ["y.edu".toList] (by decide) rfl⟩

/-- C7 counterexample: normalize_domain is not idempotent. On
"http:// x" one application yields " x" (removing the scheme exposes
interior whitespace, which only a fresh strip would remove), and a second
application yields "x". -/
theorem C7_not_idempotent :
    normalize_domain "http:// x".toList = " x".toList ∧
    normalize_domain (normalize_domain "http:// x".toList) = "x".toList ∧
    normalize_domain (normalize_domain "http:// x".toList)
      ≠ normalize_domain "http:// x".toList := by decide

/-- C7 (amended): normalize_domain is idempotent on every input whose
normalized form is already fully normal — no leading or trailing whitespace,
already lowercase, containing no "http://" or "https://" occurrence, and no
leading or trailing slash. In general a second application can differ, e.g.
when deleting a scheme exposes whitespace (see the counterexample). -/
theorem C7_idempotent_amended (s : List Char)
    (h1 : stripWS (normalize_domain s) = normalize_domain s)
    (h2 : (normalize_domain s).map Char.toLower = normalize_domain s)
    (h3 : hasSubstr "http://".toList (normalize_domain s) = false)
    (h4 : hasSubstr "https://".toList (normalize_domain s) = false)
    (h5 : stripSlash (normalize_domain s) = normalize_domain s) :
    normalize_domain (normalize_domain s) = normalize_domain s := by
  rw [normalize_domain_eq (normalize_domain s), h1, h2,
      removeSub_of_not_hasSubstr _ _ h3, removeSub_of_not_hasSubstr _ _ h4, h5]
  rw [if_neg (by have := normalize_domain_length s; omega)]

theorem C7_idempotent_amended_witness :
    (stripWS (normalize_domain "HTTP://Example.com/".toList)
       = normalize_domain "HTTP://Example.com/".toList) ∧
    ((normalize_domain "HTTP://Example.com/".toList).map Char.toLower
       = normalize_domain "HTTP://Example.com/".toList) ∧
    (hasSubstr "http://".toList (normalize_domain "HTTP://Example.com/".toList) = false) ∧
    (hasSubstr "https://".toList (normalize_domain "HTTP://Example.com/".toList) = false) ∧
    (stripSlash (normalize_domain "HTTP://Example.com/".toList)
       = normalize_domain "HTTP://Example.com/".toList) ∧
    normalize_domain (normalize_domain "HTTP://Example.com/".toList)
      = normalize_domain "HTTP://Example.com/".toList :=
  ⟨by decide, by decide, by decide, by decide, by decide,
   C7_idempotent_amended "HTTP://Example.com/".toList
     (by decide) (by decide) (by decide) (by decide) (by decide)⟩

/-- C8 counterexample: on the mixed-case input "Http://hthttp://tp://x/"
with a leading scheme and a trailing slash the result is "http://x" — it is
lowercase and loses the trailing slash, but it still starts with a scheme,
because deleting the occurrences of "http://" left to right can splice a
fresh occurrence together; the claim that the result has the scheme removed
is false. -/
theorem C8_scheme_remains :
    normalize_domain "Http://hthttp://tp://x/".toList = "http://x".toList ∧
    "http://".toList.isPrefixOf (normalize_domain "Http://hthttp://tp://x/".toList) = true := by
  decide

/-- C8 (amended): the result of normalize_domain never exceeds 255
characters (longer results are truncated, not rejected); and for every input
of the shape scheme ++ rest ++ "/" — a leading http:// or https:// scheme
and a trailing slash — whose lowercased remainder contains no scheme
occurrence of its own, does not begin or end with a slash, and fits in 255
characters, the result is exactly the lowercased remainder: lowercase, with
the scheme and the trailing slash removed. -/
theorem C8_normalize_amended (s scheme rest : List Char)
    (hs : scheme = "http://".toList ∨ scheme = "https://".toList)
    (h2 : hasSubstr "http://".toList (rest.map Char.toLower ++ ['/']) = false)
    (h3 : hasSubstr "https://".toList (rest.map Char.toLower ++ ['/']) = false)
    (h4 : (rest.map Char.toLower).head? ≠ some '/')
    (h5 : (rest.map Char.toLower).getLast? ≠ some '/')
    (h6 : rest.length ≤ 255) :
    (normalize_domain s).length ≤ 255 ∧
    normalize_domain (scheme ++ (rest ++ ['/'])) = rest.map Char.toLower :=
  ⟨normalize_domain_length s, normalize_scheme_strip scheme rest hs h2 h3 h4 h5 h6⟩

theorem C8_normalize_amended_witness :
    hasSubstr "http://".toList ("UniBasel.CH".toList.map Char.toLower ++ ['/']) = false ∧
    hasSubstr "https://".toList ("UniBasel.CH".toList.map Char.toLower ++ ['/']) = false ∧
    ("UniBasel.CH".toList.map Char.toLower).head? ≠ some '/' ∧
    ("UniBasel.CH".toList.map Char.toLower).getLast? ≠ some '/' ∧
    ((normalize_domain "abc".toList).length ≤ 255 ∧
     normalize_domain ("http://".toList ++ ("UniBasel.CH".toList ++ ['/']))
       = "UniBasel.CH".toList.map Char.toLower) :=
  ⟨by decide, by decide, by decide, by decide,
   C8_normalize_amended "abc".toList "http://".toList "UniBasel.CH".toList
     (Or.inl rfl) (by decide) (by decide) (by decide) (by decide) (by decide)⟩

/-- C9: every domain row present after a record's domain loop either was
already present or stems from position j of the record's domain list, owned
by the record's university, and carries is_primary = true exactly when
j = 0 — later positions are always inserted non-primary, and position 0 is
marked primary by its index alone, whether or not earlier entries were
skipped. -/
theorem C9_primary_flag (orc : Oracle) (idx uid : Nat) (acc : DB × Nat)
    (ds : List (List Char)) (r : DomainRow)
    (h : r ∈ (processDomains orc idx uid 0 acc ds).1.doms) :
    r ∈ acc.1.doms ∨
      ∃ j, ∃ hj : j < ds.length,
        r.domain = normalize_domain (ds.get ⟨j, hj⟩) ∧
        r.university_id = uid ∧ (r.is_primary = true ↔ j = 0) := by
  rcases processDomains_mem_doms orc idx uid ds 0 acc r h with hl | ⟨j, hj, hd, hu, hp⟩
  · exact Or.inl hl
  · refine Or.inr ⟨j, hj, hd, hu, ?_⟩
    rw [Nat.zero_add] at hp
    exact hp

theorem C9_primary_flag_witness :
    ({ domain := "b.edu".toList, university_id := 7, is_primary := false } : DomainRow)
      ∈ (processDomains pureOracle 1 7 0 (emptyDB, 0) ["a.edu".toList, "b.edu".toList]).1.doms ∧
    (({ domain := "b.edu".toList, university_id := 7, is_primary := false } : DomainRow)
        ∈ (emptyDB, 0).1.doms ∨
      ∃ j, ∃ hj : j < (["a.edu".toList, "b.edu".toList] : List (List Char)).length,
        ({ domain := "b.edu".toList, university_id := 7, is_primary := false } : DomainRow).domain
          = normalize_domain ((["a.edu".toList, "b.edu".toList] : List (List Char)).get ⟨j, hj⟩) ∧
        ({ domain := "b.edu".toList, university_id := 7, is_primary := false } : DomainRow).university_id = 7 ∧
        (({ domain := "b.edu".toList, university_id := 7, is_primary := false } : DomainRow).is_primary = true ↔ j = 0)) :=
  ⟨by decide,
   C9_primary_flag pureOracle 1 7 (emptyDB, 0) ["a.edu".toList, "b.edu".toList]
     { domain := "b.edu".toList, university_id := 7, is_primary := false } (by decide)⟩

/-- C10: every record increments exactly one of the two counters — the
universities-processed counter on the success path, the skipped counter on
the validation-failure and upsert-failure paths, never both and never
neither — and therefore after a full run universities-processed plus skipped
equals the number of input records. -/
theorem C10_counter_partition (orc : Oracle) (idx : Nat) (st : RunState) (e : Entry)
    (es : List Entry) :
    (((processEntry orc idx st e).inserted_unis = st.inserted_unis + 1 ∧
      (processEntry orc idx st e).skipped = st.skipped) ∨
     ((processEntry orc idx st e).inserted_unis = st.inserted_unis ∧
      (processEntry orc idx st e).skipped = st.skipped + 1)) ∧
    (runImport orc es).inserted_unis + (runImport orc es).skipped = es.length := by
  refine ⟨processEntry_counters orc idx st e, ?_⟩
  have h1 : (runImport orc es).inserted_unis = (processList orc 1 initState es).inserted_unis := rfl
  have h2 : (runImport orc es).skipped = (processList orc 1 initState es).skipped := rfl
  rw [h1, h2, processList_sum orc es 1 initState]
  show 0 + 0 + es.length = es.length
  omega
